import Mathlib

/-!
Verification of the Manifold document ingestion-to-retrieval pipeline.

The extractor and chunker are embedded from `src/backend/ocr_processor.py`
(class `PDFProcessor`), and the HTTP-layer guards from `src/backend/main.py`.
The semantic search engine (`SemanticSearchEngine`, imported by `main.py`
from `search_engine`) is not part of the visible source; its operations are
modelled from the spec where a claim needs them, and each such definition
says so in its doc comment.

Python strings are modelled as `List Char`; Python string primitives
(slicing, `strip`, `find`) are given executable models below.
-/

namespace Manifold

instance {ε α : Type} [DecidableEq ε] [DecidableEq α] : DecidableEq (Except ε α) := fun x y =>
  match x, y with
  | .ok a, .ok b =>
    if h : a = b then .isTrue (by rw [h]) else .isFalse (fun hc => h (Except.ok.inj hc))
  | .error a, .error b =>
    if h : a = b then .isTrue (by rw [h]) else .isFalse (fun hc => h (Except.error.inj hc))
  | .ok _, .error _ => .isFalse (fun hc => Except.noConfusion hc)
  | .error _, .ok _ => .isFalse (fun hc => Except.noConfusion hc)

/-- Model of the Python slice `s[a:b]` for `0 ≤ a ≤ b`: it clamps at the
end of the string, exactly as `(s.drop a).take (b - a)` does. -/
def pySlice (s : List Char) (a b : Nat) : List Char :=
  (s.drop a).take (b - a)

/-- Model of Python `str.strip()`: remove whitespace from both ends.
Whitespace is modelled by `Char.isWhitespace` (space, tab, CR, LF). -/
def pyStrip (s : List Char) : List Char :=
  ((s.dropWhile Char.isWhitespace).reverse.dropWhile Char.isWhitespace).reverse

/-- Does `sub` occur in `s` starting exactly at index `i`? -/
def matchAt (sub s : List Char) (i : Nat) : Bool :=
  sub.isPrefixOf (s.drop i)

/-- Scan for the first index `≥ i` at which `sub` occurs, trying at most
`fuel` candidate positions. -/
def findFrom (sub s : List Char) (i : Nat) : Nat → Option Nat
  | 0 => none
  | fuel + 1 => if matchAt sub s i then some i else findFrom sub s (i + 1) fuel

/-- Model of Python `s.find(sub, a, b)` for non-negative bounds and
non-empty `sub`: the least `i` with `a ≤ i`, `i + sub.length ≤ min b s.length`
and `sub` occurring at `i`; `none` models the return value `-1`. -/
def pyFind (sub s : List Char) (a b : Nat) : Option Nat :=
  findFrom sub s a (min b s.length + 1 - (a + sub.length))

/-- The sentence terminator searched for by `chunk_text`: `". "`. -/
def dotSpace : List Char := ['.', ' ']

/-- One page of extracted text, as produced by `PDFProcessor.extract_text`
(`ocr_processor.py` lines 52-57): a dict with `page_num`, `text`, `method`
and `char_count`. -/
structure PageText where
  page_num : Nat
  text : List Char
  method : String
  char_count : Nat
deriving DecidableEq

/-- One chunk, as produced by `PDFProcessor.chunk_text`
(`ocr_processor.py` lines 132-138). -/
structure Chunk where
  chunk_id : Nat
  page_num : Nat
  text : List Char
  start_pos : Nat
  end_pos : Nat
deriving DecidableEq

/-- The window end computed by one iteration of the `chunk_text` loop
(`ocr_processor.py` lines 120-127): tentatively `start + chunk_size`; if that
is strictly before end-of-text, look for `". "` within the next 100
characters (`text.find(". ", end, end + 100)`) and on success end the window
just after the period (`boundary + 1`). -/
def windowEnd (text : List Char) (chunk_size start : Nat) : Nat :=
  let e := start + chunk_size
  if e < text.length then
    match pyFind dotSpace text e (e + 100) with
    | some boundary => boundary + 1
    | none => e
  else e

/-- The `while start < len(text)` loop of `chunk_text`
(`ocr_processor.py` lines 119-141), with explicit fuel: `none` models
non-termination (possible only when `chunk_size = 0`; see the fuel
sufficiency lemma). Each iteration strips the slice `text[start:end]`,
appends it with the current `chunk_id` when non-empty, and continues at
`start = end`. -/
def chunkPageLoop (text : List Char) (page_num chunk_size : Nat) :
    Nat → Nat → Nat → List Chunk → Option (List Chunk × Nat)
  | 0, _, _, _ => none
  | fuel + 1, start, chunk_id, acc =>
    if start < text.length then
      let e := windowEnd text chunk_size start
      let ct := pyStrip (pySlice text start e)
      if ct.isEmpty then
        chunkPageLoop text page_num chunk_size fuel e chunk_id acc
      else
        chunkPageLoop text page_num chunk_size fuel e (chunk_id + 1)
          (acc ++ [⟨chunk_id, page_num, ct, start, e⟩])
    else
      some (acc, chunk_id)

/-- The outer `for page_data in text_content` loop of `chunk_text`
(`ocr_processor.py` line 113), threading the chunk list and the running
`chunk_id` through the pages. The fuel `text.length + 1` is sufficient
whenever the Python loop terminates. -/
def chunkPages (chunk_size : Nat) : List PageText → Nat → List Chunk → Option (List Chunk × Nat)
  | [], chunk_id, acc => some (acc, chunk_id)
  | p :: ps, chunk_id, acc =>
    match chunkPageLoop p.text p.page_num chunk_size (p.text.length + 1) 0 chunk_id acc with
    | none => none
    | some (acc2, cid2) => chunkPages chunk_size ps cid2 acc2

/-- `PDFProcessor.chunk_text` (`ocr_processor.py` lines 99-143); `none`
models a non-terminating run of the Python loop. -/
def chunk_text (text_content : List PageText) (chunk_size : Nat) : Option (List Chunk) :=
  (chunkPages chunk_size text_content 0 []).map (·.1)

/-- Declarative sentence-terminator predicate: the page text has a period at
index `j` immediately followed by a space. -/
def sentenceBoundaryAt (text : List Char) (j : Nat) : Prop :=
  text[j]? = some '.' ∧ text[j + 1]? = some ' '

/-- Declarative description of the search window of the chunker: a sentence
terminator at `j`, at or after the tentative end `e`, lying within the next
100 characters. -/
def sentenceBoundaryInWindow (text : List Char) (e j : Nat) : Prop :=
  e ≤ j ∧ j + 2 ≤ e + 100 ∧ sentenceBoundaryAt text j

theorem matchAt_dotSpace_iff (text : List Char) (j : Nat) :
    matchAt dotSpace text j = true ↔ sentenceBoundaryAt text j := by
  have h0 : text[j]? = (text.drop j)[0]? := by
    rw [List.getElem?_drop, Nat.add_zero]
  have h1 : text[j + 1]? = (text.drop j)[1]? := by
    rw [List.getElem?_drop]
  unfold matchAt sentenceBoundaryAt dotSpace
  rw [h0, h1]
  rcases hd : text.drop j with _ | ⟨a, _ | ⟨b, rest⟩⟩
  · simp [List.isPrefixOf]
  · simp [List.isPrefixOf]
  · simp only [List.isPrefixOf, Bool.and_eq_true, beq_iff_eq,
      List.getElem?_cons_zero, List.getElem?_cons_succ, Option.some.injEq, and_true]
    constructor
    · rintro ⟨ha, hb⟩; exact ⟨ha.symm, hb.symm⟩
    · rintro ⟨ha, hb⟩; exact ⟨ha.symm, hb.symm⟩

theorem findFrom_some_iff (sub s : List Char) :
    ∀ (fuel i j : Nat), findFrom sub s i fuel = some j ↔
      (i ≤ j ∧ j < i + fuel ∧ matchAt sub s j = true ∧
        ∀ k, i ≤ k → k < j → matchAt sub s k = false) := by
  intro fuel
  induction fuel with
  | zero =>
    intro i j
    constructor
    · intro h; exact absurd h (by simp [findFrom])
    · rintro ⟨h1, h2, _⟩; omega
  | succ fuel ih =>
    intro i j
    rw [findFrom]
    by_cases hm : matchAt sub s i = true
    · rw [if_pos hm]
      constructor
      · intro h
        have hij : i = j := Option.some.inj h
        subst hij
        exact ⟨Nat.le_refl _, by omega, hm, fun k hk1 hk2 => by omega⟩
      · rintro ⟨h1, h2, h3, h4⟩
        by_cases hij : i = j
        · subst hij; rfl
        · have hfalse := h4 i (Nat.le_refl _) (by omega)
          rw [hfalse] at hm
          exact absurd hm (by simp)
    · rw [if_neg hm, ih (i + 1) j]
      have hm2 : matchAt sub s i = false := by
        cases hb : matchAt sub s i
        · rfl
        · exact absurd hb hm
      constructor
      · rintro ⟨h1, h2, h3, h4⟩
        refine ⟨by omega, by omega, h3, fun k hk1 hk2 => ?_⟩
        rcases Nat.eq_or_lt_of_le hk1 with heq | hk
        · rw [← heq]; exact hm2
        · exact h4 k hk hk2
      · rintro ⟨h1, h2, h3, h4⟩
        have hij : i ≠ j := by
          rintro rfl
          rw [h3] at hm2
          exact absurd hm2 (by simp)
        exact ⟨by omega, by omega, h3, fun k hk1 hk2 => h4 k (by omega) hk2⟩

theorem findFrom_none_iff (sub s : List Char) :
    ∀ (fuel i : Nat), findFrom sub s i fuel = none ↔
      ∀ j, i ≤ j → j < i + fuel → matchAt sub s j = false := by
  intro fuel
  induction fuel with
  | zero =>
    intro i
    constructor
    · intro _ j hj1 hj2; exact absurd hj2 (by omega)
    · intro _; rfl
  | succ fuel ih =>
    intro i
    rw [findFrom]
    by_cases hm : matchAt sub s i = true
    · rw [if_pos hm]
      constructor
      · intro h; exact absurd h (by simp)
      · intro h
        have hf := h i (Nat.le_refl _) (by omega)
        rw [hf] at hm
        exact absurd hm (by simp)
    · rw [if_neg hm, ih (i + 1)]
      have hm2 : matchAt sub s i = false := by
        cases hb : matchAt sub s i
        · rfl
        · exact absurd hb hm
      constructor
      · intro h j hj1 hj2
        rcases Nat.eq_or_lt_of_le hj1 with heq | hj
        · rw [← heq]; exact hm2
        · exact h j hj (by omega)
      · intro h j hj1 hj2
        exact h j (by omega) (by omega)

/-- `matchAt dotSpace` at `j` forces `j + 2 ≤ text.length`. -/
theorem matchAt_dotSpace_le (text : List Char) (j : Nat)
    (h : matchAt dotSpace text j = true) : j + 2 ≤ text.length := by
  rcases (matchAt_dotSpace_iff text j).mp h with ⟨_, hsp⟩
  obtain ⟨hlt, _⟩ := List.getElem?_eq_some.mp hsp
  omega

/-- Bridge between the executable search of `pyFind dotSpace` and the
declarative window predicate. -/
theorem pyFind_dotSpace_some_iff (text : List Char) (e j : Nat) :
    pyFind dotSpace text e (e + 100) = some j ↔
      (sentenceBoundaryInWindow text e j ∧
        ∀ k, sentenceBoundaryInWindow text e k → j ≤ k) := by
  have hlen : dotSpace.length = 2 := rfl
  have hbridge : ∀ m, (e ≤ m ∧ m < e + (min (e + 100) text.length + 1 - (e + 2)) ∧
      matchAt dotSpace text m = true) ↔ sentenceBoundaryInWindow text e m := by
    intro m
    constructor
    · rintro ⟨h1, h2, h3⟩
      have := matchAt_dotSpace_le text m h3
      exact ⟨h1, by omega, (matchAt_dotSpace_iff text m).mp h3⟩
    · rintro ⟨h1, h2, h3⟩
      have hm : matchAt dotSpace text m = true := (matchAt_dotSpace_iff text m).mpr h3
      have := matchAt_dotSpace_le text m hm
      exact ⟨h1, by omega, hm⟩
  unfold pyFind
  rw [hlen, findFrom_some_iff]
  constructor
  · rintro ⟨h1, h2, h3, h4⟩
    refine ⟨(hbridge j).mp ⟨h1, h2, h3⟩, fun k hk => ?_⟩
    rcases (hbridge k).mpr hk with ⟨hk1, hk2, hk3⟩
    by_contra hlt
    have := h4 k hk1 (by omega)
    rw [this] at hk3
    exact Bool.false_ne_true hk3
  · rintro ⟨hj, hmin⟩
    rcases (hbridge j).mpr hj with ⟨h1, h2, h3⟩
    refine ⟨h1, h2, h3, fun k hk1 hk2 => ?_⟩
    by_contra hk
    have hk' : matchAt dotSpace text k = true := Bool.not_eq_false _ |>.mp hk
    have hkin : sentenceBoundaryInWindow text e k := (hbridge k).mp ⟨hk1, by omega, hk'⟩
    have := hmin k hkin
    omega

theorem pyFind_dotSpace_none_iff (text : List Char) (e : Nat) :
    pyFind dotSpace text e (e + 100) = none ↔
      ∀ j, ¬ sentenceBoundaryInWindow text e j := by
  have hlen : dotSpace.length = 2 := rfl
  unfold pyFind
  rw [hlen, findFrom_none_iff]
  constructor
  · intro h j hj
    rcases hj with ⟨h1, h2, h3⟩
    have hm : matchAt dotSpace text j = true := (matchAt_dotSpace_iff text j).mpr h3
    have := matchAt_dotSpace_le text j hm
    have := h j h1 (by omega)
    rw [this] at hm
    exact Bool.false_ne_true hm
  · intro h j hj1 hj2
    by_contra hk
    have hm : matchAt dotSpace text j = true := Bool.not_eq_false _ |>.mp hk
    have hle := matchAt_dotSpace_le text j hm
    exact h j ⟨hj1, by omega, (matchAt_dotSpace_iff text j).mp hm⟩

/-- The window never ends before the tentative boundary `start + chunk_size`:
a found sentence boundary only moves the end forward. -/
theorem windowEnd_ge (text : List Char) (chunk_size start : Nat) :
    start + chunk_size ≤ windowEnd text chunk_size start := by
  unfold windowEnd
  by_cases h : start + chunk_size < text.length
  · rw [if_pos h]
    cases hf : pyFind dotSpace text (start + chunk_size) (start + chunk_size + 100) with
    | none => exact Nat.le_refl _
    | some b =>
      rcases (pyFind_dotSpace_some_iff text _ b).mp hf with ⟨⟨hb, _, _⟩, _⟩
      show start + chunk_size ≤ b + 1
      omega
  · rw [if_neg h]

/-- With a positive window size, every loop iteration strictly advances. -/
theorem windowEnd_gt (text : List Char) (chunk_size start : Nat) (h : 1 ≤ chunk_size) :
    start < windowEnd text chunk_size start :=
  Nat.lt_of_lt_of_le (by omega) (windowEnd_ge text chunk_size start)

/-- Shape of every run of the per-page chunking loop: the chunks appended to
the accumulator carry the page number, the stripped pre-trim slice, ids
consecutive from the running counter, and non-empty text. -/
theorem chunkPageLoop_spec (text : List Char) (pn cs : Nat) :
    ∀ (fuel start cid : Nat) (acc res : List Chunk) (cid2 : Nat),
      chunkPageLoop text pn cs fuel start cid acc = some (res, cid2) →
      ∃ newChunks : List Chunk,
        res = acc ++ newChunks ∧
        (∀ c ∈ newChunks, c.page_num = pn ∧
          c.text = pyStrip (pySlice text c.start_pos c.end_pos) ∧ c.text ≠ []) ∧
        newChunks.map (·.chunk_id) = List.range' cid newChunks.length ∧
        cid2 = cid + newChunks.length := by
  intro fuel
  induction fuel with
  | zero => intro start cid acc res cid2 h; exact absurd h (by simp [chunkPageLoop])
  | succ fuel ih =>
    intro start cid acc res cid2 h
    rw [chunkPageLoop] at h
    by_cases hs : start < text.length
    · rw [if_pos hs] at h
      set e := windowEnd text cs start with he
      set ct := pyStrip (pySlice text start e) with hct
      by_cases hempty : ct.isEmpty
      · rw [if_pos hempty] at h
        exact ih e cid acc res cid2 h
      · rw [if_neg hempty] at h
        obtain ⟨newChunks, hres, hprops, hids, hcid⟩ :=
          ih e (cid + 1) (acc ++ [⟨cid, pn, ct, start, e⟩]) res cid2 h
        refine ⟨⟨cid, pn, ct, start, e⟩ :: newChunks, by simpa using hres, ?_, ?_, by
          simp; omega⟩
        · intro c hc
          rcases List.mem_cons.mp hc with rfl | hc2
          · refine ⟨rfl, hct, ?_⟩
            intro hnil
            exact hempty (List.isEmpty_iff.mpr hnil)
          · exact hprops c hc2
        · simp only [List.map_cons, hids, List.length_cons]
          rw [List.range'_succ]
    · rw [if_neg hs] at h
      obtain ⟨h1, h2⟩ := Prod.mk.injEq _ _ _ _ ▸ Option.some.inj h
      refine ⟨[], by simp [← h1], by simp, by simp, by simp [← h2]⟩

/-- With a positive window size the per-page loop finishes within
`text.length - start`-many iterations. -/
theorem chunkPageLoop_isSome (text : List Char) (pn cs : Nat) (hcs : 1 ≤ cs) :
    ∀ (fuel start cid : Nat) (acc : List Chunk),
      text.length - start < fuel →
      (chunkPageLoop text pn cs fuel start cid acc).isSome := by
  intro fuel
  induction fuel with
  | zero => intro start cid acc h; omega
  | succ fuel ih =>
    intro start cid acc h
    rw [chunkPageLoop]
    by_cases hs : start < text.length
    · rw [if_pos hs]
      have hadv : start < windowEnd text cs start := windowEnd_gt text cs start hcs
      by_cases hempty : (pyStrip (pySlice text start (windowEnd text cs start))).isEmpty
      · rw [if_pos hempty]
        exact ih (windowEnd text cs start) cid acc (by omega)
      · rw [if_neg hempty]
        exact ih (windowEnd text cs start) (cid + 1) _ (by omega)
    · rw [if_neg hs]
      rfl

/-- Composition of the per-page loops over the whole document. -/
theorem chunkPages_spec (cs : Nat) :
    ∀ (pages : List PageText) (cid : Nat) (acc res : List Chunk) (cid2 : Nat),
      chunkPages cs pages cid acc = some (res, cid2) →
      ∃ newChunks : List Chunk,
        res = acc ++ newChunks ∧
        (∀ c ∈ newChunks, (∃ p ∈ pages, c.page_num = p.page_num ∧
          c.text = pyStrip (pySlice p.text c.start_pos c.end_pos)) ∧ c.text ≠ []) ∧
        newChunks.map (·.chunk_id) = List.range' cid newChunks.length ∧
        cid2 = cid + newChunks.length := by
  intro pages
  induction pages with
  | nil =>
    intro cid acc res cid2 h
    rw [chunkPages] at h
    obtain ⟨h1, h2⟩ := Prod.mk.injEq _ _ _ _ ▸ Option.some.inj h
    exact ⟨[], by simp [← h1], by simp, by simp, by simp [← h2]⟩
  | cons p ps ih =>
    intro cid acc res cid2 h
    rw [chunkPages] at h
    cases hloop : chunkPageLoop p.text p.page_num cs (p.text.length + 1) 0 cid acc with
    | none => rw [hloop] at h; exact absurd h (by simp)
    | some pair =>
      rw [hloop] at h
      obtain ⟨acc2, cidA⟩ := pair
      obtain ⟨new1, hres1, hprops1, hids1, hcid1⟩ :=
        chunkPageLoop_spec p.text p.page_num cs _ 0 cid acc acc2 cidA hloop
      obtain ⟨new2, hres2, hprops2, hids2, hcid2⟩ := ih cidA acc2 res cid2 h
      refine ⟨new1 ++ new2, by simp [hres2, hres1], ?_, ?_, by simp [hcid2, hcid1]; omega⟩
      · intro c hc
        rcases List.mem_append.mp hc with hc1 | hc2
        · obtain ⟨hpn, htext, hne⟩ := hprops1 c hc1
          exact ⟨⟨p, List.mem_cons_self p ps, hpn, htext⟩, hne⟩
        · obtain ⟨⟨q, hq, hqn, hqt⟩, hne⟩ := hprops2 c hc2
          exact ⟨⟨q, List.mem_cons_of_mem p hq, hqn, hqt⟩, hne⟩
      · rw [List.map_append, hids1, hids2, hcid1, List.length_append]
        have hr := List.range'_append_1 cid new1.length new2.length
        rw [Nat.add_comm new2.length new1.length] at hr
        exact hr

instance (text : List Char) (j : Nat) : Decidable (sentenceBoundaryAt text j) := by
  unfold sentenceBoundaryAt
  infer_instance

instance (text : List Char) (e j : Nat) : Decidable (sentenceBoundaryInWindow text e j) := by
  unfold sentenceBoundaryInWindow
  infer_instance

set_option maxRecDepth 8000 in
/-- C2: whenever the tentative window end `start + chunk_size` is strictly
before end-of-text, `chunk_text` searches the next 100 characters for the
first period-followed-by-space; if one exists the window ends just after the
period (`boundary + 1`), otherwise it is cut hard at the tentative boundary;
and a 600-character page without terminators chunked with window 500 yields
exactly the hard cuts at the 500-character boundaries. -/
theorem C2_window_and_hard_cuts :
    (∀ (text : List Char) (chunk_size start : Nat),
      start + chunk_size < text.length →
        ((∀ j, ¬ sentenceBoundaryInWindow text (start + chunk_size) j) →
          windowEnd text chunk_size start = start + chunk_size) ∧
        (∀ j, sentenceBoundaryInWindow text (start + chunk_size) j →
          (∀ k, sentenceBoundaryInWindow text (start + chunk_size) k → j ≤ k) →
          windowEnd text chunk_size start = j + 1)) ∧
    chunk_text [⟨1, List.replicate 600 'a', "direct", 600⟩] 500 =
      some [⟨0, 1, List.replicate 500 'a', 0, 500⟩,
            ⟨1, 1, List.replicate 100 'a', 500, 1000⟩] := by
  constructor
  · intro text cs start h
    constructor
    · intro hnone
      unfold windowEnd
      rw [if_pos h]
      cases hf : pyFind dotSpace text (start + cs) (start + cs + 100) with
      | none => rfl
      | some b =>
        exact absurd ((pyFind_dotSpace_some_iff text _ b).mp hf).1 (hnone b)
    · intro j hj hmin
      unfold windowEnd
      rw [if_pos h]
      rw [(pyFind_dotSpace_some_iff text _ j).mpr ⟨hj, hmin⟩]
  · decide

/-- Witness for C2: on the text `"ab. cd"` with window 1 from position 0,
the terminator at index 2 is found and the window ends at 3. -/
theorem C2_window_and_hard_cuts_witness :
    (0 + 1 < ("ab. cd".toList).length) ∧ windowEnd "ab. cd".toList 1 0 = 2 + 1 := by
  refine ⟨by decide,
    (C2_window_and_hard_cuts.1 "ab. cd".toList 1 0 (by decide)).2 2 (by decide) ?_⟩
  intro k hk
  rcases hk with ⟨hk1, hk2, hkdot, hksp⟩
  by_contra hlt
  have hk3 : k = 1 := by omega
  subst hk3
  revert hkdot
  decide

/-- C5: every chunk returned by `chunk_text` records pre-trim offsets into
its source page, so its text is the whitespace-trimmed slice
`page_text[start_pos:end_pos]` of the page it came from. -/
theorem C5_chunk_offsets (text_content : List PageText) (chunk_size : Nat)
    (res : List Chunk) (h : chunk_text text_content chunk_size = some res) :
    ∀ c ∈ res, ∃ p ∈ text_content, c.page_num = p.page_num ∧
      c.text = pyStrip (pySlice p.text c.start_pos c.end_pos) := by
  unfold chunk_text at h
  cases h2 : chunkPages chunk_size text_content 0 [] with
  | none => rw [h2] at h; exact absurd h (by simp)
  | some pair =>
    rw [h2] at h
    obtain ⟨res2, cid2⟩ := pair
    have hres : res2 = res := by simpa using h
    obtain ⟨newChunks, hr, hprops, _, _⟩ :=
      chunkPages_spec chunk_size text_content 0 [] res2 cid2 h2
    subst hres
    intro c hc
    rw [hr] at hc
    exact (hprops c (by simpa using hc)).1

/-- Witness for C5 on a two-chunk page: both chunks are trimmed slices of the
page at their recorded offsets (the second end offset, 17, overshoots the
16-character page and the slice clamps, exactly as the Python slice does). -/
theorem C5_chunk_offsets_witness :
    chunk_text [⟨1, "Hello there. Bye".toList, "direct", 16⟩] 5 =
      some [⟨0, 1, "Hello there.".toList, 0, 12⟩, ⟨1, 1, "Bye".toList, 12, 17⟩] ∧
    ∀ c ∈ [(⟨0, 1, "Hello there.".toList, 0, 12⟩ : Chunk), ⟨1, 1, "Bye".toList, 12, 17⟩],
      ∃ p ∈ [(⟨1, "Hello there. Bye".toList, "direct", 16⟩ : PageText)],
        c.page_num = p.page_num ∧
        c.text = pyStrip (pySlice p.text c.start_pos c.end_pos) :=
  ⟨by decide,
    C5_chunk_offsets [⟨1, "Hello there. Bye".toList, "direct", 16⟩] 5
      [⟨0, 1, "Hello there.".toList, 0, 12⟩, ⟨1, 1, "Bye".toList, 12, 17⟩] (by decide)⟩

/-- C6: `chunk_text` drops a window whose trimmed slice is empty without
consuming a chunk id, so the returned chunks all have non-empty text and
their ids are exactly `0, 1, ..., n-1` in output order. -/
theorem C6_ids_sequential (text_content : List PageText) (chunk_size : Nat)
    (res : List Chunk) (h : chunk_text text_content chunk_size = some res) :
    res.map (·.chunk_id) = List.range res.length ∧ ∀ c ∈ res, c.text ≠ [] := by
  unfold chunk_text at h
  cases h2 : chunkPages chunk_size text_content 0 [] with
  | none => rw [h2] at h; exact absurd h (by simp)
  | some pair =>
    rw [h2] at h
    obtain ⟨res2, cid2⟩ := pair
    obtain ⟨newChunks, hr, hprops, hids, _⟩ :=
      chunkPages_spec chunk_size text_content 0 [] res2 cid2 h2
    have hres : res = newChunks := by
      have hx : res2 = res := by simpa using h
      rw [← hx, hr, List.nil_append]
    subst hres
    constructor
    · rw [hids, List.range_eq_range']
    · intro c hc
      exact (hprops c hc).2

/-- Witness for C6: the first window of `"     a"` with window 3 trims to
empty and is dropped without consuming an id, so the single remaining chunk
has id 0. -/
theorem C6_ids_sequential_witness :
    chunk_text [⟨1, "     a".toList, "direct", 6⟩] 3 =
      some [⟨0, 1, ['a'], 3, 6⟩] ∧
    ([(⟨0, 1, ['a'], 3, 6⟩ : Chunk)].map (·.chunk_id) =
      List.range [(⟨0, 1, ['a'], 3, 6⟩ : Chunk)].length ∧
      ∀ c ∈ [(⟨0, 1, ['a'], 3, 6⟩ : Chunk)], c.text ≠ []) :=
  ⟨by decide,
    C6_ids_sequential [⟨1, "     a".toList, "direct", 6⟩] 3
      [⟨0, 1, ['a'], 3, 6⟩] (by decide)⟩

/-- C9: with a window size of at least 1, every iteration strictly advances
the window start (the window end is at least `start + chunk_size` and a
found boundary only moves it further forward), so `chunk_text` terminates on
every finite input: the fuelled loop returns a result. -/
theorem C9_terminates (text_content : List PageText) (chunk_size : Nat)
    (h : 1 ≤ chunk_size) :
    (∀ (text : List Char) (start : Nat),
        start + chunk_size ≤ windowEnd text chunk_size start ∧
        start < windowEnd text chunk_size start) ∧
    (chunk_text text_content chunk_size).isSome := by
  refine ⟨fun text start =>
    ⟨windowEnd_ge text chunk_size start, windowEnd_gt text chunk_size start h⟩, ?_⟩
  unfold chunk_text
  have hps : ∀ (pages : List PageText) (cid : Nat) (acc : List Chunk),
      (chunkPages chunk_size pages cid acc).isSome := by
    intro pages
    induction pages with
    | nil => intro cid acc; rfl
    | cons p ps ih =>
      intro cid acc
      rw [chunkPages]
      have hloop := chunkPageLoop_isSome p.text p.page_num chunk_size h
        (p.text.length + 1) 0 cid acc (by omega)
      cases hl : chunkPageLoop p.text p.page_num chunk_size (p.text.length + 1) 0 cid acc with
      | none => rw [hl] at hloop; exact absurd hloop (by simp)
      | some pair =>
        obtain ⟨acc2, cid2⟩ := pair
        exact ih cid2 acc2
  have hsome := hps text_content 0 []
  cases h2 : chunkPages chunk_size text_content 0 [] with
  | none => rw [h2] at hsome; exact absurd hsome (by simp)
  | some pair => rfl

/-- Witness for C9: with window 500 the chunker returns a result on a
concrete page. -/
theorem C9_terminates_witness :
    1 ≤ 500 ∧ (chunk_text [⟨1, "One. Two. Three.".toList, "direct", 16⟩] 500).isSome :=
  ⟨by decide,
    (C9_terminates [⟨1, "One. Two. Three.".toList, "direct", 16⟩] 500 (by decide)).2⟩

/-! ## Extractor (`PDFProcessor.extract_text`, `_ocr_page`, `get_page_count`)

The external world of one page is modelled as the text direct extraction
yields plus the outcome of the fallback recognition call (`pytesseract`),
which either returns text or raises; `_ocr_page` catches the exception and
returns the sentinel error string (`ocr_processor.py` lines 86-87). -/

/-- One physical page as seen by the extractor: the text `page.get_text()`
returns, and the outcome of the fallback recognition call. -/
structure PageInput where
  directText : List Char
  ocrResult : Except (List Char) (List Char)

/-- The sentinel recorded by `_ocr_page` when recognition raises:
`f"[OCR Error on this page: {str(e)}]"`. -/
def ocrErrorText (msg : List Char) : List Char :=
  "[OCR Error on this page: ".toList ++ msg ++ "]".toList

/-- `PDFProcessor._ocr_page` (`ocr_processor.py` lines 68-87): the
recognition result on success, the sentinel string on failure; it never
raises. -/
def ocrPage (p : PageInput) : List Char :=
  match p.ocrResult with
  | .ok t => t
  | .error msg => ocrErrorText msg

/-- One iteration of the page loop of `extract_text`
(`ocr_processor.py` lines 39-57): direct text under the 50-character
threshold (after strip) switches to the fallback path and tags the page
`"ocr"`; `char_count` is the length of whatever text was kept. -/
def extractPage (idx : Nat) (p : PageInput) : PageText :=
  if (pyStrip p.directText).length < 50 then
    let t := ocrPage p
    ⟨idx + 1, t, "ocr", t.length⟩
  else
    ⟨idx + 1, p.directText, "direct", p.directText.length⟩

/-- The page loop of `extract_text`, accumulating one `PageText` per page
with 1-based page numbers. -/
def extractFrom (idx : Nat) : List PageInput → List PageText
  | [] => []
  | p :: ps => extractPage idx p :: extractFrom (idx + 1) ps

/-- `PDFProcessor.extract_text` (`ocr_processor.py` lines 31-59) on an
already-opened document. -/
def extract_text (pages : List PageInput) : List PageText :=
  extractFrom 0 pages

/-- `PDFProcessor.get_page_count` (`ocr_processor.py` lines 89-97): the
bare `except` absorbs an open/parse failure and returns 0. The argument
models the outcome of `pymupdf.open`. -/
def get_page_count (openResult : Except (List Char) (List PageInput)) : Nat :=
  match openResult with
  | .ok pages => pages.length
  | .error _ => 0

/-- The wrapper `except` of `extract_text` (`ocr_processor.py` lines 61-62):
a failure to open the document is re-raised as
`f"Error processing PDF: {str(e)}"` to the caller. -/
def extractTextDoc (openResult : Except (List Char) (List PageInput)) :
    Except (List Char) (List PageText) :=
  match openResult with
  | .ok pages => .ok (extract_text pages)
  | .error msg => .error ("Error processing PDF: ".toList ++ msg)

theorem extractFrom_length (ps : List PageInput) :
    ∀ idx, (extractFrom idx ps).length = ps.length := by
  induction ps with
  | nil => intro idx; rfl
  | cons p ps ih => intro idx; simp [extractFrom, ih]

theorem extractFrom_getElem? (ps : List PageInput) :
    ∀ idx i, (extractFrom idx ps)[i]? = (ps[i]?).map (extractPage (idx + i)) := by
  induction ps with
  | nil => intro idx i; simp [extractFrom]
  | cons p ps ih =>
    intro idx i
    cases i with
    | zero => simp [extractFrom]
    | succ i =>
      rw [show extractFrom idx (p :: ps) = extractPage idx p :: extractFrom (idx + 1) ps from rfl]
      rw [List.getElem?_cons_succ, List.getElem?_cons_succ, ih (idx + 1) i]
      have harith : idx + 1 + i = idx + (i + 1) := by omega
      rw [harith]

/-- C3: a page whose stripped direct text has fewer than 50 characters takes
the fallback recognition path and is tagged `"ocr"` (the method the spec
calls `recognized`); if recognition fails, the sentinel error string becomes
the page text and the tag is kept; and the extractor still emits one entry
per page, so a failing page never fails the whole `extract_text` call. -/
theorem C3_fallback_recognition (pages : List PageInput) (i : Nat) (p : PageInput)
    (hp : pages[i]? = some p)
    (hlow : (pyStrip p.directText).length < 50) :
    (extract_text pages).length = pages.length ∧
    ∃ q : PageText, (extract_text pages)[i]? = some q ∧
      q.method = "ocr" ∧ q.page_num = i + 1 ∧ q.text = ocrPage p ∧
      ∀ msg, p.ocrResult = .error msg → q.text = ocrErrorText msg := by
  refine ⟨extractFrom_length pages 0, extractPage (0 + i) p, ?_, ?_⟩
  · show (extractFrom 0 pages)[i]? = _
    rw [extractFrom_getElem? pages 0 i, hp]
    rfl
  · have hshape : extractPage (0 + i) p =
        ⟨0 + i + 1, ocrPage p, "ocr", (ocrPage p).length⟩ := by
      unfold extractPage
      rw [if_pos hlow]
    rw [hshape]
    refine ⟨rfl, by show 0 + i + 1 = i + 1; omega, rfl, ?_⟩
    intro msg hmsg
    show ocrPage p = ocrErrorText msg
    unfold ocrPage
    rw [hmsg]

/-- Witness for C3: a two-page document whose second page has short direct
text and a failing recognition call still extracts both pages, with the
sentinel recorded on page 2. -/
theorem C3_fallback_recognition_witness :
    (([⟨List.replicate 60 'x', Except.ok []⟩,
        ⟨"hi".toList, Except.error "boom".toList⟩] : List PageInput)[1]? =
        some ⟨"hi".toList, Except.error "boom".toList⟩ ∧
      (pyStrip ("hi".toList)).length < 50) ∧
    ((extract_text [⟨List.replicate 60 'x', Except.ok []⟩,
        ⟨"hi".toList, Except.error "boom".toList⟩]).length = 2 ∧
      ∃ q : PageText,
        (extract_text [⟨List.replicate 60 'x', Except.ok []⟩,
          ⟨"hi".toList, Except.error "boom".toList⟩])[1]? = some q ∧
        q.method = "ocr" ∧ q.page_num = 2 ∧
        q.text = ocrPage ⟨"hi".toList, Except.error "boom".toList⟩ ∧
        ∀ msg, (⟨"hi".toList, Except.error "boom".toList⟩ : PageInput).ocrResult =
            .error msg → q.text = ocrErrorText msg) :=
  ⟨⟨rfl, by decide⟩,
    C3_fallback_recognition
      [⟨List.replicate 60 'x', Except.ok []⟩, ⟨"hi".toList, Except.error "boom".toList⟩]
      1 ⟨"hi".toList, Except.error "boom".toList⟩ rfl (by decide)⟩

/-- C10: when the document cannot be opened or parsed, `get_page_count`
absorbs the failure and returns 0, while `extract_text` re-raises it as a
whole-document processing error to the caller. -/
theorem C10_page_count_absorbs (msg : List Char) :
    get_page_count (.error msg) = 0 ∧
    extractTextDoc (.error msg) = .error ("Error processing PDF: ".toList ++ msg) ∧
    ∀ pages, get_page_count (.ok pages) = pages.length := by
  exact ⟨rfl, rfl, fun pages => rfl⟩

/-! ## Corpus index and retriever

`main.py` imports `SemanticSearchEngine` from `search_engine`, whose
implementation is not part of the visible source. The definitions below are
modelled from the spec (sections 4.3 and 4.4): the index holds indexed
chunks and a global id counter for the current generation; `add_documents`
assigns each admitted chunk the next global id; `clear_index` resets both;
`search` fails on an empty corpus, rejects a non-positive `top_k`, scores
every chunk, sorts descending by raw score with ties broken by ascending
chunk id, and truncates to `top_k`. The embedding provider and the cosine
similarity are abstracted into a scoring function parameter
`score : query text → chunk text → Rat`. -/

/-- Modelled from the spec: an IndexedChunk as held by the corpus index
(spec section 3); the embedding vector is abstracted away because scoring is
modelled as a function of the chunk text. -/
structure IndexedChunk where
  chunk_id : Nat
  page_num : Nat
  filename : List Char
  text : List Char
deriving DecidableEq

/-- Modelled from the spec: the state of the corpus index, the chunks of the
current generation plus the next global chunk id of that generation. -/
structure EngineState where
  chunks : List IndexedChunk
  next_id : Nat
deriving DecidableEq

/-- Modelled from the spec: a freshly constructed index. -/
def emptyEngine : EngineState := ⟨[], 0⟩

/-- Modelled from the spec: `clear_index` discards all indexed chunks and
starts a new generation with the id counter reset. -/
def clear_index (_st : EngineState) : EngineState := emptyEngine

/-- Modelled from the spec: `get_chunk_count`, the number of indexed chunks
currently held. -/
def get_chunk_count (st : EngineState) : Nat := st.chunks.length

/-- Modelled from the spec: admission renumbers chunks into the global id
space, assigning consecutive ids from the current counter. -/
def admitChunks (next_id : Nat) (filename : List Char) : List Chunk → List IndexedChunk
  | [] => []
  | c :: cs => ⟨next_id, c.page_num, filename, c.text⟩ :: admitChunks (next_id + 1) filename cs

/-- Modelled from the spec: `add_documents` appends the admitted chunks,
never overwriting existing entries, and advances the id counter. -/
def add_documents (st : EngineState) (filename : List Char) (cs : List Chunk) : EngineState :=
  ⟨st.chunks ++ admitChunks st.next_id filename cs, st.next_id + cs.length⟩

/-- An indexed chunk paired with its raw similarity score for one query. -/
structure ScoredChunk where
  chunk : IndexedChunk
  sim : Rat
deriving DecidableEq

/-- Modelled from the spec: the ranking order of the retriever, descending
by raw score with ties broken by ascending chunk id. -/
def rankOrder (a b : ScoredChunk) : Prop :=
  b.sim < a.sim ∨ (a.sim = b.sim ∧ a.chunk.chunk_id ≤ b.chunk.chunk_id)

instance : DecidableRel rankOrder := fun a b => by
  unfold rankOrder
  infer_instance

instance : IsTotal ScoredChunk rankOrder where
  total a b := by
    unfold rankOrder
    rcases lt_trichotomy a.sim b.sim with h | h | h
    · exact Or.inr (Or.inl h)
    · rcases Nat.le_total a.chunk.chunk_id b.chunk.chunk_id with h2 | h2
      · exact Or.inl (Or.inr ⟨h, h2⟩)
      · exact Or.inr (Or.inr ⟨h.symm, h2⟩)
    · exact Or.inl (Or.inl h)

instance : IsTrans ScoredChunk rankOrder where
  trans a b c hab hbc := by
    unfold rankOrder at hab hbc ⊢
    rcases hab with h1 | ⟨h1, h1id⟩
    · rcases hbc with h2 | ⟨h2, _⟩
      · exact Or.inl (lt_trans h2 h1)
      · exact Or.inl (h2 ▸ h1)
    · rcases hbc with h2 | ⟨h2, h2id⟩
      · exact Or.inl (h1 ▸ h2)
      · exact Or.inr ⟨h1.trans h2, h1id.trans h2id⟩

/-- A search result as produced per ranked chunk (spec section 3). -/
structure SearchResult where
  chunk_id : Nat
  page_num : Nat
  filename : List Char
  text : List Char
  similarity_score : Rat
  score_percentage : Rat
deriving DecidableEq

/-- Modelled from the spec: map the raw score into a normalized 0-100
display range, clamping outside the unit interval. -/
def scorePercentage (s : Rat) : Rat :=
  if s < 0 then 0 else if 1 < s then 100 else s * 100

/-- Build the `SearchResult` record for one ranked chunk. -/
def mkResult (sc : ScoredChunk) : SearchResult :=
  ⟨sc.chunk.chunk_id, sc.chunk.page_num, sc.chunk.filename, sc.chunk.text,
    sc.sim, scorePercentage sc.sim⟩

/-- The error taxonomy of the retriever (spec section 7): empty corpus and
bad `top_k`. -/
inductive SearchError
  | emptyCorpus
  | validation
deriving DecidableEq

/-- Modelled from the spec: `search(query, top_k)` fails with the empty
corpus error when `count() == 0`, rejects `top_k ≤ 0`, and otherwise scores
every chunk, sorts by `rankOrder` and truncates to `top_k`. -/
def scoreChunks (score : List Char → List Char → Rat) (q : List Char)
    (chunks : List IndexedChunk) : List ScoredChunk :=
  chunks.map fun c => ScoredChunk.mk c (score q c.text)

def search (score : List Char → List Char → Rat) (st : EngineState)
    (q : List Char) (top_k : Int) : Except SearchError (List SearchResult) :=
  if st.chunks.length = 0 then .error .emptyCorpus
  else if top_k ≤ 0 then .error .validation
  else .ok (((List.insertionSort rankOrder (scoreChunks score q st.chunks)).take
    top_k.toNat).map mkResult)

/-- Metadata for one uploaded document, as kept in `uploaded_documents` of
`main.py` (lines 167-178). -/
structure DocumentInfo where
  filename : List Char
  page_count : Nat
  total_chunks : Nat
deriving DecidableEq

/-- The shared server state of `main.py`: the uploaded-documents registry
and the engine. -/
structure ServerState where
  uploaded_documents : List DocumentInfo
  engine : EngineState
deriving DecidableEq

/-- The `/api/search` endpoint guard plus engine call
(`main.py` lines 221-236): with no uploaded documents the request fails
before reaching the engine (HTTP 400, the spec error `EmptyCorpusError`);
otherwise the engine searches. -/
def serverSearch (score : List Char → List Char → Rat) (st : ServerState)
    (q : List Char) (top_k : Int) : Except SearchError (List SearchResult) :=
  if st.uploaded_documents.isEmpty then .error .emptyCorpus
  else search score st.engine q top_k

/-- The `/api/documents` DELETE endpoint (`main.py` lines 274-294): clears
the registry and resets the index. -/
def clear_documents (st : ServerState) : ServerState :=
  ⟨[], clear_index st.engine⟩

/-- One mutation of the corpus index over its lifetime. -/
inductive CorpusOp
  | add (filename : List Char) (cs : List Chunk)
  | clear

/-- Apply one mutation. -/
def applyOp (st : EngineState) : CorpusOp → EngineState
  | .add f cs => add_documents st f cs
  | .clear => clear_index st

/-- The engine state after a sequence of mutations from a fresh index. -/
def runOps (ops : List CorpusOp) : EngineState :=
  ops.foldl applyOp emptyEngine

/-- C1: a successful `search` returns at most `min(top_k, count())` results
(so never more than `top_k`), sorted descending by raw similarity score with
ties broken by ascending chunk id; chunk ids are assumed distinct in the
corpus, the invariant the index maintains (C8). -/
theorem C1_search_ranking (score : List Char → List Char → Rat) (st : EngineState)
    (q : List Char) (top_k : Int) (res : List SearchResult)
    (hids : (st.chunks.map (·.chunk_id)).Nodup)
    (h : search score st q top_k = .ok res) :
    res.length ≤ min top_k.toNat (get_chunk_count st) ∧
    res.Pairwise (fun a b => b.similarity_score < a.similarity_score ∨
      (a.similarity_score = b.similarity_score ∧ a.chunk_id < b.chunk_id)) := by
  unfold search at h
  by_cases h1 : st.chunks.length = 0
  · rw [if_pos h1] at h
    exact absurd h (by simp)
  · rw [if_neg h1] at h
    by_cases h2 : top_k ≤ 0
    · rw [if_pos h2] at h
      exact absurd h (by simp)
    · rw [if_neg h2] at h
      have hres := Except.ok.inj h
      subst hres
      have hperm : List.Perm (List.insertionSort rankOrder (scoreChunks score q st.chunks))
          (scoreChunks score q st.chunks) :=
        List.perm_insertionSort rankOrder _
      constructor
      · rw [List.length_map, List.length_take, hperm.length_eq]
        rw [show (scoreChunks score q st.chunks).length = st.chunks.length from
          List.length_map _ _]
        exact Nat.le_refl _
      · have hsorted : (List.insertionSort rankOrder (scoreChunks score q st.chunks)).Pairwise
            rankOrder :=
          List.sorted_insertionSort rankOrder _
        have hmapids : (scoreChunks score q st.chunks).map (fun sc => sc.chunk.chunk_id) =
            st.chunks.map (·.chunk_id) := by
          unfold scoreChunks
          rw [List.map_map]
          rfl
        have hnodup2 : ((scoreChunks score q st.chunks).map
            (fun sc => sc.chunk.chunk_id)).Nodup := by
          rw [hmapids]
          exact hids
        have hnodup3 : ((List.insertionSort rankOrder (scoreChunks score q st.chunks)).map
            (fun sc => sc.chunk.chunk_id)).Nodup :=
          ((hperm.map _).nodup_iff).mpr hnodup2
        have hne : (List.insertionSort rankOrder (scoreChunks score q st.chunks)).Pairwise
            (fun a b => a.chunk.chunk_id ≠ b.chunk.chunk_id) :=
          List.pairwise_map.mp hnodup3
        have htarget : (List.insertionSort rankOrder (scoreChunks score q st.chunks)).Pairwise
            (fun a b => b.sim < a.sim ∨
              (a.sim = b.sim ∧ a.chunk.chunk_id < b.chunk.chunk_id)) := by
          refine (hsorted.and hne).imp ?_
          rintro a b ⟨hr | ⟨heq, hle⟩, hne2⟩
          · exact Or.inl hr
          · exact Or.inr ⟨heq, lt_of_le_of_ne hle hne2⟩
        exact List.pairwise_map.mpr (htarget.sublist (List.take_sublist _ _))

/-- Witness for C1: a two-chunk corpus scored 5 versus 2 by text length is
returned in descending score order. -/
theorem C1_search_ranking_witness :
    (((⟨[⟨0, 1, ['f'], ['a', 'b']⟩, ⟨1, 1, ['f'], ['a', 'b', 'c']⟩], 2⟩ :
        EngineState).chunks.map (·.chunk_id)).Nodup ∧
      search (fun _ t => if 2 < t.length then (5 : Rat) else 2)
        ⟨[⟨0, 1, ['f'], ['a', 'b']⟩, ⟨1, 1, ['f'], ['a', 'b', 'c']⟩], 2⟩ [] 5 =
        .ok [⟨1, 1, ['f'], ['a', 'b', 'c'], 5, 100⟩, ⟨0, 1, ['f'], ['a', 'b'], 2, 100⟩]) ∧
    ([(⟨1, 1, ['f'], ['a', 'b', 'c'], 5, 100⟩ : SearchResult),
        ⟨0, 1, ['f'], ['a', 'b'], 2, 100⟩].length ≤
      min (5 : Int).toNat (get_chunk_count
        ⟨[⟨0, 1, ['f'], ['a', 'b']⟩, ⟨1, 1, ['f'], ['a', 'b', 'c']⟩], 2⟩) ∧
      [(⟨1, 1, ['f'], ['a', 'b', 'c'], 5, 100⟩ : SearchResult),
        ⟨0, 1, ['f'], ['a', 'b'], 2, 100⟩].Pairwise
        (fun a b => b.similarity_score < a.similarity_score ∨
          (a.similarity_score = b.similarity_score ∧ a.chunk_id < b.chunk_id))) :=
  ⟨⟨by decide, by decide⟩,
    C1_search_ranking (fun _ t => if 2 < t.length then (5 : Rat) else 2)
      ⟨[⟨0, 1, ['f'], ['a', 'b']⟩, ⟨1, 1, ['f'], ['a', 'b', 'c']⟩], 2⟩ [] 5
      [⟨1, 1, ['f'], ['a', 'b', 'c'], 5, 100⟩, ⟨0, 1, ['f'], ['a', 'b'], 2, 100⟩]
      (by decide) (by decide)⟩

/-- C4: whenever the engine holds zero indexed chunks, a search fails with
the empty-corpus error (via the document guard of `main.py` when the
registry is empty, via the engine check otherwise), and after
`clear_documents` the count is zero and a subsequent search fails the same
way. -/
theorem C4_empty_corpus (score : List Char → List Char → Rat) (st : ServerState)
    (q : List Char) (top_k : Int)
    (h : get_chunk_count st.engine = 0) :
    serverSearch score st q top_k = .error .emptyCorpus ∧
    get_chunk_count (clear_documents st).engine = 0 ∧
    serverSearch score (clear_documents st) q top_k = .error .emptyCorpus := by
  have hsearch : ∀ st2 : ServerState, get_chunk_count st2.engine = 0 →
      serverSearch score st2 q top_k = .error .emptyCorpus := by
    intro st2 h2
    unfold serverSearch
    by_cases hd : st2.uploaded_documents.isEmpty
    · rw [if_pos hd]
    · rw [if_neg hd]
      unfold search
      have h3 : st2.engine.chunks.length = 0 := h2
      rw [if_pos h3]
  exact ⟨hsearch st h, rfl, hsearch _ rfl⟩

/-- Witness for C4: a registry with one document but an empty index still
fails with the empty-corpus error, as does a cleared server. -/
theorem C4_empty_corpus_witness :
    (get_chunk_count (⟨[⟨['d'], 1, 0⟩], ⟨[], 0⟩⟩ : ServerState).engine = 0) ∧
    (serverSearch (fun _ _ => 0) ⟨[⟨['d'], 1, 0⟩], ⟨[], 0⟩⟩ ['w'] 3 = .error .emptyCorpus ∧
      get_chunk_count (clear_documents ⟨[⟨['d'], 1, 0⟩], ⟨[], 0⟩⟩).engine = 0 ∧
      serverSearch (fun _ _ => 0) (clear_documents ⟨[⟨['d'], 1, 0⟩], ⟨[], 0⟩⟩) ['w'] 3 =
        .error .emptyCorpus) :=
  ⟨rfl, C4_empty_corpus (fun _ _ => 0) ⟨[⟨['d'], 1, 0⟩], ⟨[], 0⟩⟩ ['w'] 3 rfl⟩

theorem admitChunks_ids (cs : List Chunk) :
    ∀ (n : Nat) (f : List Char),
      (admitChunks n f cs).map (·.chunk_id) = List.range' n cs.length := by
  induction cs with
  | nil => intro n f; rfl
  | cons c cs ih =>
    intro n f
    simp only [admitChunks, List.map_cons, List.length_cons, ih, List.range'_succ]

/-- The index invariant: ids strictly increase in insertion order and stay
below the generation counter. -/
def goodState (st : EngineState) : Prop :=
  (st.chunks.map (·.chunk_id)).Pairwise (· < ·) ∧
  ∀ c ∈ st.chunks, c.chunk_id < st.next_id

theorem goodState_applyOp (st : EngineState) (op : CorpusOp) (h : goodState st) :
    goodState (applyOp st op) := by
  obtain ⟨hpair, hbound⟩ := h
  cases op with
  | clear => exact ⟨List.Pairwise.nil, fun c hc => absurd hc (List.not_mem_nil c)⟩
  | add f cs =>
    constructor
    · show ((st.chunks ++ admitChunks st.next_id f cs).map (·.chunk_id)).Pairwise (· < ·)
      rw [List.map_append, admitChunks_ids]
      rw [List.pairwise_append]
      refine ⟨hpair, List.pairwise_lt_range' _ _, ?_⟩
      intro a ha b hb
      obtain ⟨c, hc, rfl⟩ := List.mem_map.mp ha
      have hbn : st.next_id ≤ b := (List.mem_range'_1.mp hb).1
      exact lt_of_lt_of_le (hbound c hc) hbn
    · intro c hc
      show c.chunk_id < st.next_id + cs.length
      rcases List.mem_append.mp hc with hc1 | hc2
      · exact lt_of_lt_of_le (hbound c hc1) (Nat.le_add_right _ _)
      · have hidmem : c.chunk_id ∈ (admitChunks st.next_id f cs).map (·.chunk_id) :=
          List.mem_map_of_mem _ hc2
        rw [admitChunks_ids] at hidmem
        exact (List.mem_range'_1.mp hidmem).2

theorem goodState_runOps (ops : List CorpusOp) : goodState (runOps ops) := by
  have hgen : ∀ (ops2 : List CorpusOp) (st : EngineState), goodState st →
      goodState (ops2.foldl applyOp st) := by
    intro ops2
    induction ops2 with
    | nil => intro st h; exact h
    | cons op ops2 ih => intro st h; exact ih _ (goodState_applyOp st op h)
  exact hgen ops emptyEngine ⟨List.Pairwise.nil, fun c hc => absurd hc (List.not_mem_nil c)⟩

/-- C8: after any sequence of index mutations the chunk ids of the current
generation are strictly increasing in insertion order (hence unique), and a
`clear` followed immediately by admission of a fresh document assigns ids
`0, 1, ..., n-1` again. -/
theorem C8_generation_ids (ops : List CorpusOp) (st : EngineState)
    (f : List Char) (cs : List Chunk) :
    ((runOps ops).chunks.map (·.chunk_id)).Pairwise (· < ·) ∧
    (applyOp (applyOp st .clear) (.add f cs)).chunks.map (·.chunk_id) =
      List.range cs.length := by
  refine ⟨(goodState_runOps ops).1, ?_⟩
  show (admitChunks 0 f cs).map (·.chunk_id) = List.range cs.length
  rw [admitChunks_ids, List.range_eq_range']

/-! ## Highlighter

`find_semantic_highlights` lives in the missing `search_engine` module; it
is modelled from the spec (section 4.5): split the result text into
candidate spans at sentence-like boundaries, falling back to fixed windows
inside a long boundary-free run; score each span; drop spans under
`min_score`; keep the best `top_k`; return them in order of appearance. -/

/-- Modelled from the spec: the fixed-window fallback span length for long
boundary-free runs. -/
def maxSpanLen : Nat := 200

/-- Fixed windows of width `w` covering `[a, b)`, with explicit fuel. -/
def fixedWindows (w : Nat) : Nat → Nat → Nat → List (Nat × Nat)
  | 0, _, _ => []
  | fuel + 1, a, b =>
    if a < b then (a, min (a + w) b) :: fixedWindows w fuel (min (a + w) b) b else []

/-- Modelled from the spec: split positions at sentence-like boundaries
(`". "`), falling back to fixed windows when no boundary occurs in a run
longer than `maxSpanLen`. Every produced pair brackets a contiguous region
of the text. -/
def sentenceSpans (s : List Char) : Nat → Nat → List (Nat × Nat)
  | 0, _ => []
  | fuel + 1, a =>
    if a < s.length then
      match pyFind dotSpace s a s.length with
      | some b => (a, b + 2) :: sentenceSpans s fuel (b + 2)
      | none =>
        if maxSpanLen < s.length - a then
          fixedWindows maxSpanLen (s.length - a + 1) a s.length
        else [(a, s.length)]
    else []

/-- Modelled from the spec: the candidate spans of one result text. -/
def candidateSpans (s : List Char) : List (Nat × Nat) :=
  sentenceSpans s (s.length + 1) 0

/-- A candidate span with its score: start and stop offsets into the result
text. -/
structure SpanScore where
  start : Nat
  stop : Nat
  sim : Rat
deriving DecidableEq

/-- Modelled from the spec: keep the highest-scoring spans, ties resolved
toward the earlier span. -/
def spanRank (a b : SpanScore) : Prop :=
  b.sim < a.sim ∨ (a.sim = b.sim ∧ a.start ≤ b.start)

/-- Reading order: ascending start offset. -/
def spanPos (a b : SpanScore) : Prop := a.start ≤ b.start

instance : DecidableRel spanRank := fun a b => by
  unfold spanRank
  infer_instance

instance : DecidableRel spanPos := fun a b => by
  unfold spanPos
  infer_instance

instance : IsTotal SpanScore spanPos where
  total a b := Nat.le_total a.start b.start

instance : IsTrans SpanScore spanPos where
  trans _ _ _ hab hbc := Nat.le_trans hab hbc

/-- A highlight (spec section 3): a sub-span of the result text and its
score. -/
structure Highlight where
  span_text : List Char
  score : Rat
deriving DecidableEq

/-- Modelled from the spec: the spans `find_semantic_highlights` keeps, in
reading order: score all candidates, drop those under `min_score`, keep the
best `top_k`, then restore order of appearance. -/
def highlightSpans (score : List Char → List Char → Rat) (q s : List Char)
    (top_k : Nat) (min_score : Rat) : List SpanScore :=
  List.insertionSort spanPos
    ((List.insertionSort spanRank
      (((candidateSpans s).map fun p => SpanScore.mk p.1 p.2 (score q (pySlice s p.1 p.2))).filter
        fun c => decide (min_score ≤ c.sim))).take top_k)

/-- Modelled from the spec: `find_semantic_highlights(query, result_text,
top_k, min_score)` as called by `main.py` (lines 240-245). -/
def find_semantic_highlights (score : List Char → List Char → Rat) (q s : List Char)
    (top_k : Nat) (min_score : Rat) : List Highlight :=
  (highlightSpans score q s top_k min_score).map fun c => ⟨pySlice s c.start c.stop, c.sim⟩

/-- Any slice sits inside the text between the leading and trailing parts. -/
theorem pySlice_split (s : List Char) (a b : Nat) :
    s = s.take a ++ pySlice s a b ++ (s.drop a).drop (b - a) := by
  unfold pySlice
  rw [List.append_assoc, List.take_append_drop, List.take_append_drop]

/-- C7: every highlight returned by the highlighter carries an exact literal
substring of the result text, and the returned sequence is in order of
appearance within the result text (ascending span start, not score order). -/
theorem C7_highlights_substrings (score : List Char → List Char → Rat)
    (q s : List Char) (top_k : Nat) (min_score : Rat) :
    (∀ h ∈ find_semantic_highlights score q s top_k min_score,
      ∃ pre suf : List Char, s = pre ++ h.span_text ++ suf) ∧
    (highlightSpans score q s top_k min_score).Pairwise spanPos ∧
    find_semantic_highlights score q s top_k min_score =
      (highlightSpans score q s top_k min_score).map
        fun c => ⟨pySlice s c.start c.stop, c.sim⟩ := by
  refine ⟨?_, List.sorted_insertionSort spanPos _, rfl⟩
  intro h hmem
  obtain ⟨c, _, rfl⟩ := List.mem_map.mp hmem
  exact ⟨s.take c.start, (s.drop c.start).drop (c.stop - c.start),
    pySlice_split s c.start c.stop⟩

/-- Witness for C7: on the result text `"Hi. Yo."` the first returned
highlight is a literal substring of the text. -/
theorem C7_highlights_substrings_witness :
    (⟨"Hi. ".toList, 1⟩ : Highlight) ∈
      find_semantic_highlights (fun _ _ => (1 : Rat)) [] "Hi. Yo.".toList 2 0 ∧
    ∃ pre suf : List Char,
      "Hi. Yo.".toList = pre ++ (⟨"Hi. ".toList, 1⟩ : Highlight).span_text ++ suf :=
  ⟨by decide,
    (C7_highlights_substrings (fun _ _ => (1 : Rat)) [] "Hi. Yo.".toList 2 0).1
      ⟨"Hi. ".toList, 1⟩ (by decide)⟩

end Manifold
